import Mathlib

/-!
Verification development for the running-coach RAG repository.

Shallow embedding of the pure cores of:
  - src/src/createDB.tsx        : projectToDim, splitIntoChunks
  - src/basics/retrieve.tsx     : projectToDim (identical copy), readChunkContent
  - src/basics/observability.ts : Trace/Span model, submitTrace finalization and
                                  span-content wire transform
  - src/src/fetchDeployedPrompt.tsx : injectVariables

Modelling conventions:
  - JS strings are `List Char` internally (wrapped in `String` at API edges).
  - JS numbers are modelled as exact rationals; the claims settled here do not
    depend on binary floating-point rounding.
  - JS values flowing through `any`-typed code are modelled by the `JVal` JSON
    value type; absent properties (undefined) are `Option.none`.
  - Loops whose termination depends on runtime values (the hard-split loop of
    splitIntoChunks) are embedded with fuel and return `Option`; `none` models
    divergence/never-returning.
-/

set_option maxRecDepth 40000

/-- JS whitespace class, the common members of the regexp class \s. -/
def isJsSpace (c : Char) : Bool :=
  c = ' ' || c = '\t' || c = '\n' || c = '\r' || c = '\x0b' || c = '\x0c'

/-- Sentence-final punctuation, the regexp class [.?!] of the chunker. -/
def isSentEnd (c : Char) : Bool :=
  c = '.' || c = '?' || c = '!'

/-- JS String.prototype.trim on char lists (drop whitespace at both ends). -/
def jsTrim (l : List Char) : List Char :=
  ((l.dropWhile isJsSpace).reverse.dropWhile isJsSpace).reverse

/-- Helper for collapseWs: the Bool records whether the previous kept
character came from a whitespace run. -/
def collapseWsAux : Bool → List Char → List Char
  | _, [] => []
  | prevSpace, c :: cs =>
    if isJsSpace c then
      if prevSpace then collapseWsAux true cs
      else ' ' :: collapseWsAux true cs
    else c :: collapseWsAux false cs

/-- JS text.replace(/\s+/g, ' '): every maximal whitespace run becomes one space. -/
def collapseWs (l : List Char) : List Char :=
  collapseWsAux false l

/-- JS Array/String.prototype.slice(a, b) index semantics: negative indices
count from the end, then both are clamped to [0, length]. -/
def jsSlice (l : List Char) (a b : Int) : List Char :=
  let len : Int := l.length
  let s := if a < 0 then max (len + a) 0 else min a len
  let e := if b < 0 then max (len + b) 0 else min b len
  if s < e then (l.drop s.toNat).take (e - s).toNat else []

/-- JS indexing src[i] for a numeric vector; out-of-range access yields
undefined in JS, modelled by 0 here (no claim reads such an entry: it is
reachable only when projecting an empty vector). -/
def jsIdx (l : List ℚ) (i : Int) : ℚ :=
  if h : 0 ≤ i ∧ i.toNat < l.length then l.get ⟨i.toNat, h.2⟩ else 0

/-- projectToDim from src/src/createDB.tsx lines 42-61 (the copy in
src/basics/retrieve.tsx lines 22-41 is textually identical).
Deterministic block-averaging projection to match the index dimension. -/
def projectToDim (src : List ℚ) (targetDim : Nat) : List ℚ :=
  let m := src.length
  if m = targetDim then src   -- return src.slice(): a copy with equal contents
  else if targetDim < m then
    (List.range targetDim).map (fun j =>
      let start := j * m / targetDim
      let e0 := (j + 1) * m / targetDim
      let e := if e0 = 0 then start + 1 else e0   -- JS: end || (start + 1)
      -- for (let i = start; i < end && i < m; i++) s += src[i]
      let s : ℚ := ((List.range' start (min e m - start)).map
        (fun i => src.getD i 0)).sum
      s / ((max 1 (e - start) : ℕ) : ℚ))
  else
    (List.range targetDim).map (fun j =>
      let idx := j * m / targetDim
      jsIdx src (min ((m : Int) - 1) (idx : Int)))

/-- Scanner for text.split(/(?<=[.?!])\s+/g) from splitIntoChunks
(src/src/createDB.tsx line 83).  The accumulator holds the current piece
reversed, so its head is the previously consumed character (the lookbehind).
A split happens at a whitespace character whose predecessor is sentence-final
punctuation and consumes the maximal whitespace run.  Fuel is consumed one
unit per step; fuel >= length of the input never runs out. -/
def splitSentencesAux : Nat → List Char → List Char → List (List Char)
  | _, cur, [] => [cur.reverse]
  | 0, cur, l => [cur.reverse ++ l]   -- fuel exhausted; unreachable for fuel >= l.length
  | fuel + 1, cur, c :: cs =>
    if (match cur with | p :: _ => isSentEnd p | [] => false) && isJsSpace c then
      cur.reverse :: splitSentencesAux fuel [] (cs.dropWhile isJsSpace)
    else
      splitSentencesAux fuel (c :: cur) cs

/-- text.split(/(?<=[.?!])\s+/g) of src/src/createDB.tsx line 83. -/
def splitSentences (l : List Char) : List (List Char) :=
  splitSentencesAux l.length [] l

/-- The hard-split loop of splitIntoChunks (src/src/createDB.tsx lines 99-101):
for (let i = 0; i < s.length; i += chunkSize - overlap) chunks.push(s.slice(i, i + chunkSize)).
The step chunkSize - overlap is an Int, exactly as in JS; when it is <= 0 the
loop never terminates, which the fuel embedding reports as none. -/
def hardSplitAux (fuel : Nat) (i : Int) (s : List Char) (chunkSize overlap : Nat) :
    Option (List (List Char)) :=
  match fuel with
  | 0 => none
  | fuel + 1 =>
    if i < (s.length : Int) then
      match hardSplitAux fuel (i + ((chunkSize : Int) - (overlap : Int))) s chunkSize overlap with
      | none => none
      | some rest => some (jsSlice s i (i + (chunkSize : Int)) :: rest)
    else some []

set_option linter.unusedVariables false in
/-- The sentence-accumulation loop of splitIntoChunks
(src/src/createDB.tsx lines 85-108), including the final flush of a
non-empty buffer.  Chunks are emitted in source order.  A hard split is run
with fuel s.length + 1, which suffices exactly when its step is positive. -/
def chunkLoop (sentences : List (List Char)) (current : List Char)
    (chunkSize overlap : Nat) : Option (List (List Char)) :=
  match sentences with
  | [] => some (if current.length > 0 then [current] else [])
  | s :: rest =>
    if (jsTrim (current ++ ' ' :: s)).length ≤ chunkSize then
      chunkLoop rest (jsTrim (current ++ ' ' :: s)) chunkSize overlap
    else
      let pushed := if current.length > 0 then [current] else []
      -- Source lines 94-95 compute the overlap seed here:
      --   const startOverlap = Math.max(0, current.length - overlap);
      --   current = current.slice(startOverlap).trim();
      -- That value is mirrored below, and - exactly as in the source - it is
      -- then overwritten by both following branches (current is reset at line 102,
      -- current = s.trim() at line 104), so it never reaches the output.
      let seeded := if current.length > 0
        then jsTrim (current.drop (current.length - overlap)) else current
      if s.length > chunkSize then
        match hardSplitAux (s.length + 1) 0 s chunkSize overlap with
        | none => none
        | some hs => (chunkLoop rest [] chunkSize overlap).map (fun tail => pushed ++ (hs ++ tail))
      else
        (chunkLoop rest (jsTrim s) chunkSize overlap).map (fun tail => pushed ++ tail)

/-- splitIntoChunks from src/src/createDB.tsx lines 81-110, with its default
parameters chunkSize = 900 and overlap = 150.  Returns none when the
hard-split loop would never terminate. -/
def splitIntoChunks (text : String) (chunkSize : Nat := 900) (overlap : Nat := 150) :
    Option (List String) :=
  (chunkLoop (splitSentences text.data) [] chunkSize overlap).map
    (fun ls => ls.map String.mk)

/-- The text-processing core of readChunkContent
(src/basics/retrieve.tsx lines 211-235) applied to the text read from a file
in ./data (the file IO itself is outside the embedding): the PDF path
normalizes via (text).replace(/\s+/g, ' ').trim() and then returns
doc.slice(chunkNum * chunkSize, chunkNum * chunkSize + chunkSize). -/
def readChunkContent (fileText : String) (chunkNum : Nat) (chunkSize : Nat := 800) :
    String :=
  let doc := jsTrim (collapseWs fileText.data)
  String.mk (jsSlice doc ((chunkNum * chunkSize : Nat) : Int)
    ((chunkNum * chunkSize + chunkSize : Nat) : Int))

/-- Lookup in the variables record of injectVariables; JS object keys are
unique, modelled by first-match lookup in an association list.  The source
applies String(value) to the stored value; the map is modelled as holding its
values already stringified (the claims only exercise string values, for which
String is the identity). -/
def lookupVar : List (String × String) → String → Option String
  | [], _ => none
  | (k, v) :: rest, key => if k = key then some v else lookupVar rest key

/-- The regexp-replace callback of injectVariables
(src/src/fetchDeployedPrompt.tsx lines 190-197): the captured name is
trimmed; if it is a key of the map the stringified value is substituted,
otherwise the whole match is kept verbatim. -/
def replaceFor (vars : List (String × String)) (run : List Char) : List Char :=
  match lookupVar vars (String.mk (jsTrim run)) with
  | some v => v.data
  | none => '\x7b' :: '\x7b' :: (run ++ ['\x7d', '\x7d'])

/-- One scan step of template.replace(/\x7b\x7b([^\x7d]+)\x7d\x7d/g, ...):
returns (emitted output, remaining input).  A match needs two opening
braces, a non-empty run of non-closing-brace characters, and two closing
braces; on a failed match attempt the engine advances one character. -/
def injectStep (vars : List (String × String)) (l : List Char) :
    List Char × List Char :=
  match l with
  | [] => ([], [])
  | c :: cs =>
    if c = '\x7b' then
      match cs with
      | c2 :: cs2 =>
        if c2 = '\x7b' then
          let run := cs2.takeWhile (fun d => d ≠ '\x7d')
          match cs2.drop run.length with
          | d1 :: d2 :: tail =>
            if run ≠ [] ∧ d1 = '\x7d' ∧ d2 = '\x7d' then
              (replaceFor vars run, tail)
            else ([c], cs)
          | _ => ([c], cs)
        else ([c], cs)
      | [] => ([c], [])
    else ([c], cs)

/-- Driver for the global regexp replace: repeat injectStep over the whole
input.  Fuel decreases by one per step; the remainder shrinks at each step,
so fuel >= length of the input never runs out. -/
def injectAux (vars : List (String × String)) : Nat → List Char → List Char
  | 0, l => l
  | _ + 1, [] => []
  | fuel + 1, c :: cs =>
    let p := injectStep vars (c :: cs)
    p.1 ++ injectAux vars fuel p.2

/-- Global regexp replace on char lists, with adequate fuel. -/
def injectList (vars : List (String × String)) (l : List Char) : List Char :=
  injectAux vars l.length l

/-- injectVariables from src/src/fetchDeployedPrompt.tsx lines 189-198. -/
def injectVariables (template : String) (vars : List (String × String)) : String :=
  String.mk (injectList vars template.data)

/-- JSON-representable JS values; an absent property (undefined) is
represented by Option.none at the use sites, never by a JVal. -/
inductive JVal where
  | null
  | bool (b : Bool)
  | num (q : ℚ)
  | str (s : String)
  | arr (elems : List JVal)
  | obj (fields : List (String × JVal))

/-- JS truthiness of a JVal. -/
def jsTruthy : JVal → Bool
  | JVal.null => false
  | JVal.bool b => b
  | JVal.num q => decide (q ≠ 0)
  | JVal.str s => decide (s ≠ "")
  | JVal.arr _ => true
  | JVal.obj _ => true

/-- Is the value null (the only JVal that the ?? operator skips, since
undefined is Option.none at the use sites). -/
def jIsNull : JVal → Bool
  | JVal.null => true
  | _ => false

/-- The JS test typeof v === "object" (true for objects, arrays and null). -/
def jIsObjectType : JVal → Bool
  | JVal.obj _ => true
  | JVal.arr _ => true
  | JVal.null => true
  | _ => false

/-- First-match lookup in the field list of an object (JS object keys are unique
when built by the embedded code, so first match is the match). -/
def lookupF : List (String × JVal) → String → Option JVal
  | [], _ => none
  | (k, v) :: rest, key => if k = key then some v else lookupF rest key

/-- JS property read v.k: undefined (none) unless v is an object with the key. -/
def getF (v : JVal) (key : String) : Option JVal :=
  match v with
  | JVal.obj fields => lookupF fields key
  | _ => none

/-- JS property write semantics on field lists: an existing key keeps its
position and gets the new value, a new key is appended. -/
def setKey : List (String × JVal) → String → JVal → List (String × JVal)
  | [], key, v => [(key, v)]
  | (k, w) :: rest, key, v =>
    if k = key then (k, v) :: rest else (k, w) :: setKey rest key v

/-- parsed.tokenUsage = ... of observability.ts line 185: property assignment.
On a plain object it sets the key; on an array it sets a non-index property
that JSON.stringify ignores, so the array is unchanged; on a primitive or
null it throws a TypeError (the compiled code runs in strict mode), which the
embedding reports as none. -/
def setFieldJS (v : JVal) (key : String) (x : JVal) : Option JVal :=
  match v with
  | JVal.obj fields => some (JVal.obj (setKey fields key x))
  | JVal.arr elems => some (JVal.arr elems)
  | _ => none

/-- Spread of a value into an object literal: objects contribute their
fields, arrays and strings contribute index-keyed entries, primitives and
null contribute nothing. -/
def jsSpread : JVal → List (String × JVal)
  | JVal.obj fields => fields
  | JVal.arr elems => elems.enum.map (fun p => (toString p.1, p.2))
  | JVal.str s => s.data.enum.map (fun p => (toString p.1, JVal.str (String.mk [p.2])))
  | _ => []

/-- An object literal: keys are set left to right with JS property-write
semantics (duplicates keep the first position, last value wins). -/
def objLit (items : List (String × JVal)) : List (String × JVal) :=
  items.foldl (fun acc p => setKey acc p.1 p.2) []

/-- Rendering of a JS number for JSON.stringify.  Integral values (the only
numbers the claims inspect) are rendered digit-exactly; a non-integral
rational, which models a binary float only approximately anyway, is rendered
as numerator/denominator.  No theorem depends on this rendering. -/
def jnumToString (q : ℚ) : String :=
  if q.den = 1 then toString q.num else toString q.num ++ "/" ++ toString q.den

/-- Escape of one character inside a JSON string literal. -/
def jsonEscapeChar (c : Char) : String :=
  if c = '"' then "\\\""
  else if c = '\\' then "\\\\"
  else if c = '\n' then "\\n"
  else if c = '\t' then "\\t"
  else if c = '\r' then "\\r"
  else String.mk [c]

/-- A JSON string literal. -/
def jsonQuote (s : String) : String :=
  "\"" ++ s.data.foldl (fun acc c => acc ++ jsonEscapeChar c) "" ++ "\""

/-- JSON.stringify on JVal (keys in insertion order, as in JS). -/
def jsonStringify : JVal → String
  | JVal.null => "null"
  | JVal.bool b => if b then "true" else "false"
  | JVal.num q => jnumToString q
  | JVal.str s => jsonQuote s
  | JVal.arr elems =>
    "[" ++ String.intercalate "," (elems.attach.map (fun e => jsonStringify e.1)) ++ "]"
  | JVal.obj fields =>
    "\x7b" ++ String.intercalate ","
      (fields.attach.map (fun f => jsonQuote f.1.1 ++ ":" ++ jsonStringify f.1.2)) ++ "\x7d"
termination_by v => sizeOf v
decreasing_by
  · have := List.sizeOf_lt_of_mem e.2
    simp only [JVal.arr.sizeOf_spec]
    omega
  · have h1 := List.sizeOf_lt_of_mem f.2
    have h2 : sizeOf f.1.2 < sizeOf f.1 := by
      obtain ⟨a, b⟩ := f.1
      simp only [Prod.mk.sizeOf_spec]
      omega
    simp only [JVal.obj.sizeOf_spec]
    omega

/-- Decimal digit test for the JSON number grammar. -/
def isDigitCh (c : Char) : Bool := '0' ≤ c ∧ c ≤ '9'

/-- Digits to a natural number, most significant first. -/
def digitsToNat (ds : List Char) : Nat :=
  ds.foldl (fun acc c => acc * 10 + (c.toNat - '0'.toNat)) 0

/-- Hexadecimal digit value for \uXXXX escapes. -/
def hexVal (c : Char) : Option Nat :=
  if '0' ≤ c ∧ c ≤ '9' then some (c.toNat - '0'.toNat)
  else if 'a' ≤ c ∧ c ≤ 'f' then some (c.toNat - 'a'.toNat + 10)
  else if 'A' ≤ c ∧ c ≤ 'F' then some (c.toNat - 'A'.toNat + 10)
  else none

/-- Body of a JSON string literal after the opening quote; returns the
decoded characters and the input after the closing quote. -/
def parseStrAux : Nat → List Char → Option (List Char × List Char)
  | 0, _ => none
  | _ + 1, [] => none
  | fuel + 1, c :: cs =>
    if c = '"' then some ([], cs)
    else if c = '\\' then
      match cs with
      | [] => none
      | e :: cs2 =>
        if e = 'u' then
          match cs2 with
          | h1 :: h2 :: h3 :: h4 :: cs3 =>
            match hexVal h1, hexVal h2, hexVal h3, hexVal h4 with
            | some a, some b, some cv, some d =>
              let n := ((a * 16 + b) * 16 + cv) * 16 + d
              (parseStrAux fuel cs3).map (fun p => ((Char.ofNat n) :: p.1, p.2))
            | _, _, _, _ => none
          | _ => none
        else
          let dec : Option Char :=
            if e = '"' then some '"'
            else if e = '\\' then some '\\'
            else if e = '/' then some '/'
            else if e = 'n' then some '\n'
            else if e = 't' then some '\t'
            else if e = 'r' then some '\r'
            else if e = 'b' then some '\x08'
            else if e = 'f' then some '\x0c'
            else none
          match dec with
          | none => none
          | some d => (parseStrAux fuel cs2).map (fun p => (d :: p.1, p.2))
    else (parseStrAux fuel cs).map (fun p => (c :: p.1, p.2))

/-- A JSON number literal, parsed exactly into a rational. -/
def parseNum (l : List Char) : Option (ℚ × List Char) :=
  let (neg, l1) := match l with
    | '-' :: rest => (true, rest)
    | _ => (false, l)
  let intDs := l1.takeWhile isDigitCh
  if intDs = [] then none else
  let l2 := l1.drop intDs.length
  let (fracDs, l3) := match l2 with
    | '.' :: rest => (rest.takeWhile isDigitCh, rest.drop (rest.takeWhile isDigitCh).length)
    | _ => ([], l2)
  let (expV, l4) : Int × List Char := match l3 with
    | e :: rest =>
      if e = 'e' ∨ e = 'E' then
        match rest with
        | '-' :: r2 => (-(digitsToNat (r2.takeWhile isDigitCh) : Int),
            r2.drop (r2.takeWhile isDigitCh).length)
        | '+' :: r2 => ((digitsToNat (r2.takeWhile isDigitCh) : Int),
            r2.drop (r2.takeWhile isDigitCh).length)
        | r2 => ((digitsToNat (r2.takeWhile isDigitCh) : Int),
            r2.drop (r2.takeWhile isDigitCh).length)
      else (0, l3)
    | [] => (0, l3)
  let mant : ℚ := (digitsToNat (intDs ++ fracDs) : ℚ) / ((10 : ℚ) ^ fracDs.length)
  let v : ℚ := (if neg then -mant else mant) * (10 : ℚ) ^ expV
  some (v, l4)

mutual

/-- Recursive-descent JSON value parser (fuelled; fuel is generous at the
call site, and parse failure of invalid JSON models the JSON.parse throw). -/
def parseVal : Nat → List Char → Option (JVal × List Char)
  | 0, _ => none
  | fuel + 1, l =>
    match l.dropWhile isJsSpace with
    | [] => none
    | c :: cs =>
      if c = '"' then (parseStrAux (cs.length + 1) cs).map
        (fun p => (JVal.str (String.mk p.1), p.2))
      else if c = '[' then
        match cs.dropWhile isJsSpace with
        | ']' :: rest => some (JVal.arr [], rest)
        | _ => (parseArrAux fuel cs).map (fun p => (JVal.arr p.1, p.2))
      else if c = '\x7b' then
        match cs.dropWhile isJsSpace with
        | '\x7d' :: rest => some (JVal.obj [], rest)
        | _ => (parseObjAux fuel cs).map (fun p => (JVal.obj p.1, p.2))
      else
        match c :: cs with
        | 't' :: 'r' :: 'u' :: 'e' :: rest => some (JVal.bool true, rest)
        | 'f' :: 'a' :: 'l' :: 's' :: 'e' :: rest => some (JVal.bool false, rest)
        | 'n' :: 'u' :: 'l' :: 'l' :: rest => some (JVal.null, rest)
        | l2 => (parseNum l2).map (fun p => (JVal.num p.1, p.2))

/-- Comma-separated array elements up to the closing bracket. -/
def parseArrAux : Nat → List Char → Option (List JVal × List Char)
  | 0, _ => none
  | fuel + 1, l =>
    match parseVal fuel l with
    | none => none
    | some (v, rest) =>
      match rest.dropWhile isJsSpace with
      | ',' :: rest2 => (parseArrAux fuel rest2).map (fun p => (v :: p.1, p.2))
      | ']' :: rest2 => some ([v], rest2)
      | _ => none

/-- Comma-separated object members up to the closing brace. -/
def parseObjAux : Nat → List Char → Option (List (String × JVal) × List Char)
  | 0, _ => none
  | fuel + 1, l =>
    match l.dropWhile isJsSpace with
    | '"' :: cs =>
      match parseStrAux (cs.length + 1) cs with
      | none => none
      | some (key, rest) =>
        match rest.dropWhile isJsSpace with
        | ':' :: rest2 =>
          match parseVal fuel rest2 with
          | none => none
          | some (v, rest3) =>
            match rest3.dropWhile isJsSpace with
            | ',' :: rest4 => (parseObjAux fuel rest4).map
                (fun p => ((String.mk key, v) :: p.1, p.2))
            | '\x7d' :: rest4 => some ([(String.mk key, v)], rest4)
            | _ => none
        | _ => none
    | _ => none

end

/-- JSON.parse: whole-input parse with generous fuel; trailing non-space
input is a syntax error. -/
def jsonParse (s : String) : Option JVal :=
  match parseVal (2 * s.data.length + 2) s.data with
  | some (v, rest) => if rest.dropWhile isJsSpace = [] then some v else none
  | none => none

/-- The success | error status union of observability.ts. -/
inductive Status where
  | success
  | error
deriving DecidableEq

/-- The optional token rollup of a Span (observability.ts line 28). -/
structure TokensE where
  input : Option ℚ
  output : Option ℚ
  total : Option ℚ

/-- The Span record of observability.ts lines 8-29, restricted to the fields
the embedded transforms read (identity and correlation ids are carried by the
wire payload verbatim and are not modelled). -/
structure SpanE where
  name : String
  status : Status
  startedAt : Int
  endedAt : Int
  content : Option JVal := none
  cost : Option ℚ := none
  latency : Option ℚ := none
  tokens : Option TokensE := none

/-- The Trace record of observability.ts lines 31-42, restricted to the
fields finalization reads and writes. -/
structure TraceE where
  name : String
  status : Status
  startedAt : Int
  endedAt : Int
  spans : List SpanE

/-- The finalization step of submitTrace (observability.ts lines 104-109),
reachable when ADALINE_API_KEY is set: trace.endedAt = Date.now() (the
current time is an input here), and the trace status becomes error when any
span has error status. -/
def finalizeTrace (trace : TraceE) (now : Int) : TraceE :=
  let t1 := { trace with endedAt := now }
  if t1.spans.any (fun s => decide (s.status = Status.error)) then
    { t1 with status := Status.error }
  else t1

/-- s.tokens as a JSON value: the present fields in declaration order. -/
def tokensToJVal (t : TokensE) : JVal :=
  JVal.obj
    ((match t.input with | some q => [("input", JVal.num q)] | none => []) ++
     (match t.output with | some q => [("output", JVal.num q)] | none => []) ++
     (match t.total with | some q => [("total", JVal.num q)] | none => []))

/-- a ?? b for a JS property that may be absent (none) or null. -/
def nullish (a : Option JVal) (b : JVal) : JVal :=
  match a with
  | some v => if jIsNull v then b else v
  | none => b

/-- The JS test type === "Model" for the (possibly absent) content.type value. -/
def typeIsModel (t : Option JVal) : Bool :=
  match t with
  | some (JVal.str s) => s = "Model"
  | _ => false

/-- The span-content wire transform of submitTrace
(observability.ts lines 128-194): builds the content object of one span
payload.  Returns none when the source would throw (JSON.parse failure, or a
strict-mode property assignment on a primitive). -/
def buildSpanContent (s : SpanE) : Option (List (String × JVal)) :=
  let c := match s.content with | some v => v | none => JVal.obj []  -- s.content ?? {}
  let typeV := getF c "type"
  -- let content: any = {}; if (type) content.type = type;
  let content0 : List (String × JVal) :=
    match typeV with
    | some t => if jsTruthy t then setKey [] "type" t else []
    | none => []
  -- if (c.input !== undefined) content.input = typeof c.input === "string"
  --   ? c.input : JSON.stringify(c.input);
  let content1 :=
    match getF c "input" with
    | some (JVal.str str) => setKey content0 "input" (JVal.str str)
    | some v => setKey content0 "input" (JVal.str (jsonStringify v))
    | none => content0
  -- non-Model output handling (lines 142-159)
  let content2 :=
    match getF c "output" with
    | some out =>
      if typeIsModel typeV then content1
      else
        let outputObj := if jIsObjectType out then out else JVal.obj [("value", out)]
        let enriched := objLit (jsSpread outputObj ++
          (match s.cost with | some q => [("cost", JVal.num q)] | none => []) ++
          (match s.latency with | some q => [("latency", JVal.num q)] | none => []) ++
          (match s.tokens with | some t => [("tokens", tokensToJVal t)] | none => []))
        setKey content1 "output" (JVal.str (jsonStringify (JVal.obj enriched)))
    | none =>
      if typeIsModel typeV then content1
      else if s.cost.isSome || s.latency.isSome || s.tokens.isSome then
        setKey content1 "output" (JVal.str (jsonStringify (JVal.obj (objLit
          ((match s.cost with | some q => [("cost", JVal.num q)] | none => []) ++
           (match s.latency with | some q => [("latency", JVal.num q)] | none => []) ++
           (match s.tokens with | some t => [("tokens", tokensToJVal t)] | none => []))))))
      else content1
  -- Model-specific handling (lines 162-194)
  if typeIsModel typeV then
    -- const modelFromInput = (typeof c.input === "object" && c.input)
    --   ? c.input.model : undefined;
    let modelFromInput : Option JVal :=
      match getF c "input" with
      | some v => if jIsObjectType v && jsTruthy v then getF v "model" else none
      | none => none
    let content3 := setKey content2 "provider" (nullish (getF c "provider") (JVal.str "openai"))
    let content4 := setKey content3 "model"
      (nullish (getF c "model") (nullish modelFromInput (JVal.str "")))
    let content5 :=
      match getF c "variables" with
      | some v => if jsTruthy v then setKey content4 "variables" v else content4
      | none => content4
    let content6 :=
      match s.cost with
      | some q => setKey content5 "cost" (JVal.num q)
      | none => content5
    match getF c "output" with
    | some out =>
      -- const outputObj = typeof c.output === "object" ? c.output
      --   : JSON.parse(JSON.stringify(c.output));
      -- (JSON round-trip of a JSON-representable non-object value is itself)
      let outputObj := out
      -- const parsed = typeof outputObj === "string"
      --   ? JSON.parse(outputObj || '\x7b\x7d') : outputObj;
      let parsedOpt : Option JVal :=
        match outputObj with
        | JVal.str str => jsonParse (if str = "" then "\x7b\x7d" else str)
        | v => some v
      match parsedOpt with
      | none => none
      | some parsed =>
        let parsedOpt2 : Option JVal :=
          match s.tokens with
          | some t => setFieldJS parsed "tokenUsage" (JVal.obj
              [("promptTokens", JVal.num ((t.input).getD 0)),
               ("completionTokens", JVal.num ((t.output).getD 0)),
               ("totalTokens", JVal.num ((t.total).getD 0))])
          | none => some parsed
        match parsedOpt2 with
        | none => none
        | some parsed2 => some (setKey content6 "output" (JVal.str (jsonStringify parsed2)))
    | none => some content6
  else some content2

/-- C1: the overlap seeding of the chunker never reaches the output.  On
splitIntoChunks("aaaa. bbbb.", 6, 3) the comment in the source promises the
second chunk to start with the trailing 3 characters "aa." of the first
chunk "aaaa.", but the seeded buffer is overwritten by current = s.trim()
(line 104), so the second chunk is "bbbb.", which does not start with "aa.". -/
theorem splitIntoChunks_overlap_seed_is_dead :
    splitIntoChunks "aaaa. bbbb." 6 3 = some ["aaaa.", "bbbb."] ∧
    "aaaa.".data.drop ("aaaa.".data.length - 3) = "aa.".data ∧
    "bbbb.".data.take 3 ≠ "aa.".data := by
  refine ⟨by decide, by decide, by decide⟩

/-- C2: splitIntoChunks neither rejects nor clamps overlap >= chunkSize.
With overlap = chunkSize = 5 and no overlong sentence it proceeds with the
unmodified overlap and returns chunks; as soon as a sentence is longer than
chunkSize the hard-split loop runs with step chunkSize - overlap = 0 and
never terminates (none for every fuel). -/
theorem splitIntoChunks_no_overlap_validation :
    splitIntoChunks "aaaa. bbbb." 5 5 = some ["aaaa.", "bbbb."] ∧
    splitIntoChunks "aaaaaaaa" 5 5 = none ∧
    (∀ fuel : Nat, hardSplitAux fuel 0 "aaaaaaaa".data 5 5 = none) := by
  refine ⟨by decide, by decide, ?_⟩
  intro fuel
  induction fuel with
  | zero => rfl
  | succ n ih => simp [hardSplitAux, ih]

/-- C4: finalization (the pure core of submitTrace) sets the trace status to
error exactly when it already was error or some contained span has error
status; in particular span statuses [success, error, success] finalize the
trace to error. -/
theorem finalizeTrace_status_error_iff :
    (∀ (t : TraceE) (now : Int),
      (finalizeTrace t now).status = Status.error ↔
        (t.status = Status.error ∨ ∃ s ∈ t.spans, s.status = Status.error)) ∧
    (finalizeTrace
      { name := "t", status := Status.success, startedAt := 0, endedAt := 0,
        spans := [{ name := "s1", status := Status.success, startedAt := 0, endedAt := 1 },
                  { name := "s2", status := Status.error, startedAt := 1, endedAt := 2 },
                  { name := "s3", status := Status.success, startedAt := 2, endedAt := 3 }] }
      9).status = Status.error := by
  constructor
  · intro t now
    constructor
    · intro hst
      by_cases h : t.spans.any (fun s => decide (s.status = Status.error))
      · rw [List.any_eq_true] at h
        obtain ⟨s, hs, he⟩ := h
        exact Or.inr ⟨s, hs, of_decide_eq_true he⟩
      · left
        simpa [finalizeTrace, h] using hst
    · intro hrhs
      rcases hrhs with h1 | ⟨s, hs, he⟩
      · by_cases h : t.spans.any (fun s => decide (s.status = Status.error))
        · simp [finalizeTrace, h]
        · simpa [finalizeTrace, h] using h1
      · have h : t.spans.any (fun s => decide (s.status = Status.error)) :=
          List.any_eq_true.2 ⟨s, hs, decide_eq_true he⟩
        simp [finalizeTrace, h]
  · decide

/-- C7: projecting a vector to its own width returns a vector equal to the
input (the source returns src.slice(), a copy; copy-versus-alias is not
observable in the pure embedding). -/
theorem projectToDim_same_width_id :
    ∀ (v : List ℚ) (n : Nat), v.length = n → projectToDim v n = v := by
  intro v n h
  subst h
  simp [projectToDim]

/-- Witness for C7 at v = [1, 2, 3], n = 3. -/
theorem projectToDim_same_width_id_witness :
    (([1, 2, 3] : List ℚ).length = 3) ∧ projectToDim [1, 2, 3] 3 = [1, 2, 3] :=
  ⟨rfl, projectToDim_same_width_id [1, 2, 3] 3 rfl⟩

/-- C9: projectToDim is a pure function: equal arguments give equal results,
and the output length is always exactly the target width (also for an empty
source vector). -/
theorem projectToDim_pure_and_length :
    (∀ (v : List ℚ) (n : Nat), 1 ≤ n → (projectToDim v n).length = n) ∧
    (∀ (v1 v2 : List ℚ) (n1 n2 : Nat), v1 = v2 → n1 = n2 →
      projectToDim v1 n1 = projectToDim v2 n2) := by
  constructor
  · intro v n _
    by_cases h1 : v.length = n
    · simp [projectToDim, h1]
    · by_cases h2 : n < v.length
      · simp [projectToDim, h1, h2]
      · simp [projectToDim, h1, h2]
  · intro v1 v2 n1 n2 h1 h2
    subst h1; subst h2; rfl

/-- Witness for C9 at v = [], n = 3. -/
theorem projectToDim_pure_and_length_witness :
    (1 ≤ 3) ∧ (projectToDim ([] : List ℚ) 3).length = 3 :=
  ⟨by decide, projectToDim_pure_and_length.1 [] 3 (by decide)⟩

/-- Reading any in-range index of a constant vector gives the constant. -/
theorem getD_replicate_of_lt (c : ℚ) :
    ∀ (m i : Nat), i < m → (List.replicate m c).getD i 0 = c := by
  intro m
  induction m with
  | zero => intro i h; omega
  | succ k ih =>
    intro i h
    cases i with
    | zero => simp [List.replicate_succ]
    | succ i2 => simp only [List.replicate_succ, List.getD_cons_succ]; exact ih i2 (by omega)

/-- Summing in-range reads of a constant vector gives length times the constant. -/
theorem sum_map_getD_const (c : ℚ) (m : Nat) :
    ∀ (l : List Nat), (∀ i ∈ l, i < m) →
      ((l.map (fun i => (List.replicate m c).getD i 0)).sum = (l.length : ℚ) * c) := by
  intro l
  induction l with
  | nil => simp
  | cons a t ih =>
    intro h
    have ha := getD_replicate_of_lt c m a (h a (List.mem_cons_self a t))
    have ht := ih (fun i hi => h i (List.mem_cons_of_mem a hi))
    simp only [List.map_cons, List.sum_cons, ha, ht, List.length_cons]
    push_cast
    ring

/-- C8: block-average downsampling of a constant vector returns the constant
vector of the target width (each output entry is the arithmetic mean of a
non-empty block of equal entries). -/
theorem projectToDim_const_downsample :
    ∀ (c : ℚ) (m n : Nat), 1 ≤ n → n < m →
      projectToDim (List.replicate m c) n = List.replicate n c := by
  intro c m n hn hnm
  have hm : (List.replicate m c).length = m := List.length_replicate m c
  simp only [projectToDim, hm]
  rw [if_neg (by omega), if_pos hnm]
  refine List.eq_replicate_iff.2 ⟨by simp, ?_⟩
  intro b hb
  obtain ⟨j, hj, rfl⟩ := List.mem_map.1 hb
  have hjn : j < n := List.mem_range.1 hj
  have hpos : 0 < n := hn
  have hstart : j * m / n + 1 ≤ (j + 1) * m / n := by
    have h1 : j * m / n + 1 = (j * m + n) / n := (Nat.add_div_right _ hpos).symm
    have h2 : (j * m + n) ≤ (j + 1) * m := by nlinarith
    calc j * m / n + 1 = (j * m + n) / n := h1
      _ ≤ ((j + 1) * m) / n := Nat.div_le_div_right h2
  have he0m : (j + 1) * m / n ≤ m := by
    have h1 : (j + 1) * m ≤ n * m := Nat.mul_le_mul_right m hjn
    calc (j + 1) * m / n ≤ n * m / n := Nat.div_le_div_right h1
      _ = m := Nat.mul_div_cancel_left m hpos
  have hsle : j * m / n ≤ (j + 1) * m / n := Nat.le_of_succ_le hstart
  have hne0 : (j + 1) * m / n ≠ 0 :=
    Nat.one_le_iff_ne_zero.mp (le_trans (Nat.le_add_left 1 _) hstart)
  have hcancel : j * m / n + ((j + 1) * m / n - j * m / n) = (j + 1) * m / n :=
    Nat.add_sub_cancel' hsle
  rw [if_neg hne0]
  rw [min_eq_left he0m]
  rw [sum_map_getD_const c m _ (fun i hi => by
    have hmem := (List.mem_range'_1.1 hi).2
    rw [hcancel] at hmem
    exact lt_of_lt_of_le hmem he0m)]
  rw [List.length_range']
  have h1e : 1 ≤ (j + 1) * m / n - j * m / n :=
    Nat.le_sub_of_add_le (by rw [Nat.add_comm]; exact hstart)
  rw [max_eq_right h1e]
  have hne : (((j + 1) * m / n - j * m / n : ℕ) : ℚ) ≠ 0 :=
    Nat.cast_ne_zero.mpr (Nat.one_le_iff_ne_zero.mp h1e)
  exact mul_div_cancel_left₀ c hne

/-- Witness for C8 at c = 5, m = 4, n = 2. -/
theorem projectToDim_const_downsample_witness :
    (1 ≤ 2) ∧ (2 < 4) ∧
      projectToDim (List.replicate 4 (5 : ℚ)) 2 = List.replicate 2 (5 : ℚ) :=
  ⟨by decide, by decide, projectToDim_const_downsample 5 4 2 (by decide) (by decide)⟩

/-- Dropping a prefix by predicate never lengthens a list. -/
theorem dropWhile_length_le (p : Char → Bool) (l : List Char) :
    (l.dropWhile p).length ≤ l.length := by
  induction l with
  | nil => simp
  | cons c cs ih =>
    rw [List.dropWhile_cons]
    split
    · exact le_trans ih (by simp)
    · exact le_refl _

/-- Trimming never lengthens a string. -/
theorem jsTrim_length_le (l : List Char) : (jsTrim l).length ≤ l.length := by
  unfold jsTrim
  calc ((l.dropWhile isJsSpace).reverse.dropWhile isJsSpace).reverse.length
      = ((l.dropWhile isJsSpace).reverse.dropWhile isJsSpace).length := List.length_reverse _
    _ ≤ (l.dropWhile isJsSpace).reverse.length := dropWhile_length_le _ _
    _ = (l.dropWhile isJsSpace).length := List.length_reverse _
    _ ≤ l.length := dropWhile_length_le _ _

/-- A slice of width w has length at most w. -/
theorem jsSlice_length_le (l : List Char) (a : Int) (w : Nat) :
    (jsSlice l a (a + (w : Int))).length ≤ w := by
  have key : ∀ (s e : Int) (l2 : List Char),
      (if s < e then (l2.drop s.toNat).take (e - s).toNat else []).length ≤ (e - s).toNat := by
    intro s e l2
    split
    · exact List.length_take_le _ _
    · simp
  simp only [jsSlice]
  refine le_trans (key _ _ _) ?_
  split_ifs <;> omega

/-- Every chunk emitted by the hard-split loop is a slice of width
chunkSize, hence at most chunkSize long. -/
theorem hardSplitAux_chunk_len :
    ∀ (fuel : Nat) (i : Int) (s : List Char) (cs ov : Nat) (hs : List (List Char)),
      hardSplitAux fuel i s cs ov = some hs → ∀ ch ∈ hs, ch.length ≤ cs := by
  intro fuel
  induction fuel with
  | zero => intro i s cs ov hs h; simp [hardSplitAux] at h
  | succ n ih =>
    intro i s cs ov hs h ch hch
    rw [hardSplitAux] at h
    split at h
    · cases hrec : hardSplitAux n (i + ((cs : Int) - (ov : Int))) s cs ov with
      | none => rw [hrec] at h; simp at h
      | some rest =>
        rw [hrec] at h
        injection h with h2
        subst h2
        rcases List.mem_cons.1 hch with h3 | h3
        · subst h3; exact jsSlice_length_le s i cs
        · exact ih _ s cs ov rest hrec ch h3
    · injection h with h2
      subst h2
      simp at hch

/-- Invariant of the accumulation loop: if the running buffer is within the
bound, every emitted chunk is within the bound. -/
theorem chunkLoop_chunk_len :
    ∀ (sentences : List (List Char)) (current : List Char) (cs ov : Nat)
      (out : List (List Char)), current.length ≤ cs →
      chunkLoop sentences current cs ov = some out → ∀ ch ∈ out, ch.length ≤ cs := by
  intro sentences
  induction sentences with
  | nil =>
    intro current cs ov out hcur h ch hch
    simp only [chunkLoop] at h
    injection h with h2
    subst h2
    split at hch
    · rw [List.mem_singleton] at hch
      subst hch
      exact hcur
    · simp at hch
  | cons s rest ih =>
    intro current cs ov out hcur h ch hch
    simp only [chunkLoop] at h
    split at h
    · rename_i hle
      exact ih _ cs ov out hle h ch hch
    · split at h
      · cases hh : hardSplitAux (s.length + 1) 0 s cs ov with
        | none => rw [hh] at h; simp at h
        | some hsl =>
          rw [hh] at h
          obtain ⟨tail, htail, rfl⟩ := Option.map_eq_some'.1 h
          rcases List.mem_append.1 hch with h1 | h1
          · split at h1
            · rw [List.mem_singleton] at h1
              subst h1
              exact hcur
            · simp at h1
          · rcases List.mem_append.1 h1 with h2 | h2
            · exact hardSplitAux_chunk_len _ _ s cs ov hsl hh ch h2
            · exact ih [] cs ov tail (by simp) htail ch h2
      · rename_i hnotlong
        obtain ⟨tail, htail, rfl⟩ := Option.map_eq_some'.1 h
        rcases List.mem_append.1 hch with h1 | h1
        · split at h1
          · rw [List.mem_singleton] at h1
            subst h1
            exact hcur
          · simp at h1
        · refine ih (jsTrim s) cs ov tail ?_ htail ch h1
          exact le_trans (jsTrim_length_le s) (by omega)

/-- C10: with 0 <= overlap < chunkSize, every chunk produced by
splitIntoChunks (sentence-accumulated chunks, hard-split windows and the
final flushed buffer alike) has length at most chunkSize. -/
theorem splitIntoChunks_chunk_len_le :
    ∀ (text : String) (cs ov : Nat) (chunks : List String), ov < cs →
      splitIntoChunks text cs ov = some chunks → ∀ ch ∈ chunks, ch.length ≤ cs := by
  intro text cs ov chunks _ h ch hch
  unfold splitIntoChunks at h
  obtain ⟨ls, hls, rfl⟩ := Option.map_eq_some'.1 h
  obtain ⟨l, hl, rfl⟩ := List.mem_map.1 hch
  have hlen : (String.mk l).length = l.length := rfl
  rw [hlen]
  exact chunkLoop_chunk_len (splitSentences text.data) [] cs ov ls (by simp) hls l hl

/-- Witness for C10 at splitIntoChunks("aaaa. bbbb.", 6, 3). -/
theorem splitIntoChunks_chunk_len_le_witness :
    (3 < 6) ∧ splitIntoChunks "aaaa. bbbb." 6 3 = some ["aaaa.", "bbbb."] ∧
      ("aaaa." : String).length ≤ 6 :=
  ⟨by decide, by decide,
    splitIntoChunks_chunk_len_le "aaaa. bbbb." 6 3 ["aaaa.", "bbbb."]
      (by decide) (by decide) "aaaa." (by decide)⟩

/-- A whitespace-free input is a single sentence for the sentence scanner. -/
theorem splitSentencesAux_no_space :
    ∀ (l : List Char) (cur : List Char) (fuel : Nat), l.length ≤ fuel →
      (∀ c ∈ l, isJsSpace c = false) →
      splitSentencesAux fuel cur l = [cur.reverse ++ l] := by
  intro l
  induction l with
  | nil => intro cur fuel _ _; cases fuel <;> simp [splitSentencesAux]
  | cons c cs ih =>
    intro cur fuel hfuel hno
    cases fuel with
    | zero => simp at hfuel
    | succ f =>
      have hstep : splitSentencesAux (f + 1) cur (c :: cs) =
          if (match cur with | p :: _ => isSentEnd p | [] => false) && isJsSpace c then
            cur.reverse :: splitSentencesAux f [] (cs.dropWhile isJsSpace)
          else splitSentencesAux f (c :: cur) cs := rfl
      rw [hstep]
      have hc := hno c (List.mem_cons_self c cs)
      have hrec := ih (c :: cur) f (by simpa using hfuel)
        (fun d hd => hno d (List.mem_cons_of_mem c hd))
      simp [hc, hrec]

/-- A whitespace-free input is untouched by whitespace collapsing. -/
theorem collapseWsAux_no_space :
    ∀ (l : List Char), (∀ c ∈ l, isJsSpace c = false) →
      ∀ (b : Bool), collapseWsAux b l = l := by
  intro l
  induction l with
  | nil => intro _ b; rfl
  | cons c cs ih =>
    intro hno b
    have hc := hno c (List.mem_cons_self c cs)
    simp [collapseWsAux, hc, ih (fun d hd => hno d (List.mem_cons_of_mem c hd)) false]

/-- dropWhile by a predicate that fails on every element is the identity. -/
theorem dropWhile_no_space (l : List Char) (hno : ∀ c ∈ l, isJsSpace c = false) :
    l.dropWhile isJsSpace = l := by
  cases l with
  | nil => rfl
  | cons c cs =>
    rw [List.dropWhile_cons, hno c (List.mem_cons_self c cs)]
    simp

/-- A whitespace-free input is untouched by trimming. -/
theorem jsTrim_no_space (l : List Char) (hno : ∀ c ∈ l, isJsSpace c = false) :
    jsTrim l = l := by
  unfold jsTrim
  rw [dropWhile_no_space l hno]
  rw [dropWhile_no_space l.reverse (fun c hc => hno c (List.mem_reverse.1 hc))]
  rw [List.reverse_reverse]

/-- Trimming absorbs a leading space. -/
theorem jsTrim_cons_space (l : List Char) : jsTrim (' ' :: l) = jsTrim l := by
  unfold jsTrim
  rw [List.dropWhile_cons]
  norm_num [isJsSpace]


/-- A 500-character sentence of x characters, ending in a period. -/
def sentX : String := String.mk (List.replicate 499 'x' ++ ['.'])

/-- A 500-character sentence of y characters, ending in a period. -/
def sentY : String := String.mk (List.replicate 499 'y' ++ ['.'])

/-- A two-sentence normalized document of 1001 characters. -/
def twoSentDoc : String := String.mk (sentX.data ++ ' ' :: sentY.data)

/-- C3 counterexample: at their respective default parameters, ingestion
chunking (sentence-aware splitIntoChunks, chunkSize 900) and retrieval
re-derivation (readChunkContent, fixed slices of 800) disagree already at
chunk index 0 of a 1001-character two-sentence document: ingestion stores
the 500-character first sentence, retrieval re-derives an 800-character
slice. -/
theorem readChunkContent_disagrees_with_ingestion :
    splitIntoChunks twoSentDoc = some [sentX, sentY] ∧
    readChunkContent twoSentDoc 0 ≠ sentX ∧
    (readChunkContent twoSentDoc 0).length = 800 ∧
    sentX.length = 500 := by
  refine ⟨by decide, by decide, by decide, by decide⟩

/-- C3 amended: agreement between the two chunk derivations holds only in
degenerate cases; for a whitespace-free single-sentence document of at most
800 characters, ingestion chunking (defaults 900/150) yields the whole
document as chunk 0, and the retrieval slice (default 800) at index 0
equals it. -/
theorem readChunkContent_single_sentence_agreement :
    ∀ (doc : List Char), doc ≠ [] → doc.length ≤ 800 →
      doc.all (fun c => !(isJsSpace c)) = true →
      splitIntoChunks (String.mk doc) 900 150 = some [String.mk doc] ∧
      readChunkContent (String.mk doc) 0 800 = String.mk doc := by
  intro doc hne hlen hall
  have hno : ∀ c ∈ doc, isJsSpace c = false := by
    intro c hc
    have := List.all_eq_true.1 hall c hc
    simpa using this
  have hdata : (String.mk doc).data = doc := rfl
  have hpos : 0 < doc.length := List.length_pos.2 hne
  constructor
  · unfold splitIntoChunks splitSentences
    rw [hdata]
    rw [splitSentencesAux_no_space doc [] doc.length (le_refl _) hno]
    simp only [List.reverse_nil, List.nil_append]
    rw [chunkLoop]
    have htrim : jsTrim ([] ++ ' ' :: doc) = doc := by
      rw [List.nil_append, jsTrim_cons_space, jsTrim_no_space doc hno]
    rw [htrim]
    rw [if_pos (by omega : doc.length ≤ 900)]
    rw [chunkLoop]
    rw [if_pos hpos]
    rfl
  · unfold readChunkContent
    rw [hdata]
    rw [collapseWs, collapseWsAux_no_space doc hno false, jsTrim_no_space doc hno]
    have hlen8 : ((doc.length : Int)) ≤ 800 := by exact_mod_cast hlen
    have hslice : jsSlice doc ((0 * 800 : Nat) : Int) ((0 * 800 + 800 : Nat) : Int) = doc := by
      norm_num
      simp only [jsSlice]
      norm_num
      rw [if_pos hpos, min_eq_right hlen8]
      simp
    simp only [hslice]

/-- Witness for the C3 amended theorem at doc = "Hello!". -/
theorem readChunkContent_single_sentence_agreement_witness :
    ("Hello!".data ≠ [] ∧ "Hello!".data.length ≤ 800 ∧
      "Hello!".data.all (fun c => !(isJsSpace c)) = true) ∧
    splitIntoChunks (String.mk "Hello!".data) 900 150 = some [String.mk "Hello!".data] ∧
    readChunkContent (String.mk "Hello!".data) 0 800 = String.mk "Hello!".data :=
  ⟨⟨by decide, by decide, by decide⟩,
    readChunkContent_single_sentence_agreement "Hello!".data
      (by decide) (by decide) (by decide)⟩

/-- takeWhile over a satisfying prefix stops exactly at the first failing
element. -/
theorem takeWhile_append_of_all (p : Char → Bool) :
    ∀ (l1 : List Char) (b : Char) (l2 : List Char),
      (∀ a ∈ l1, p a = true) → p b = false →
      (l1 ++ b :: l2).takeWhile p = l1 := by
  intro l1
  induction l1 with
  | nil => intro b l2 _ hb; simp [List.takeWhile_cons, hb]
  | cons a t ih =>
    intro b l2 hall hb
    have ha := hall a (List.mem_cons_self a t)
    simp only [List.cons_append, List.takeWhile_cons, ha, if_true]
    rw [ih b l2 (fun x hx => hall x (List.mem_cons_of_mem a hx)) hb]

/-- Each scan step consumes at least one input character. -/
theorem injectStep_snd_lt (vars : List (String × String)) :
    ∀ (l : List Char), l ≠ [] → (injectStep vars l).2.length < l.length := by
  intro l hne
  match l with
  | [] => exact absurd rfl hne
  | c :: cs =>
    simp only [injectStep]
    split
    · split
      · rename_i c2 cs2
        split
        · split
          · rename_i heq
            split
            · have hlen := congrArg List.length heq
              simp only [List.length_drop, List.length_cons] at hlen
              simp only [List.length_cons]
              omega
            · simp
          · simp
        · simp
      · simp
    · simp

/-- The scan result does not depend on the fuel, as long as the fuel covers
the input length. -/
theorem injectAux_fuel_irrel (vars : List (String × String)) :
    ∀ (f1 f2 : Nat) (l : List Char), l.length ≤ f1 → l.length ≤ f2 →
      injectAux vars f1 l = injectAux vars f2 l := by
  intro f1
  induction f1 with
  | zero =>
    intro f2 l h1 _
    have : l = [] := List.length_eq_zero.1 (Nat.le_zero.1 h1)
    subst this
    cases f2 <;> rfl
  | succ n ih =>
    intro f2 l h1 h2
    match l with
    | [] => cases f2 <;> rfl
    | c :: cs =>
      cases f2 with
      | zero => simp at h2
      | succ m =>
        have hstep : ∀ k, injectAux vars (k + 1) (c :: cs) =
            (injectStep vars (c :: cs)).1 ++ injectAux vars k (injectStep vars (c :: cs)).2 :=
          fun k => rfl
        rw [hstep n, hstep m]
        congr 1
        have hlt := injectStep_snd_lt vars (c :: cs) (by simp)
        have hcs : (c :: cs).length = cs.length + 1 := rfl
        exact ih m _ (by omega) (by omega)

/-- A character that cannot open a placeholder is copied verbatim. -/
theorem injectList_cons_no_brace (vars : List (String × String)) (c : Char)
    (rest : List Char) (h : c ≠ '\x7b') :
    injectList vars (c :: rest) = c :: injectList vars rest := by
  have hstep : injectStep vars (c :: rest) = ([c], rest) := by
    simp [injectStep, h]
  have h1 : injectAux vars (rest.length + 1) (c :: rest) =
      (injectStep vars (c :: rest)).1 ++ injectAux vars rest.length (injectStep vars (c :: rest)).2 :=
    rfl
  show injectAux vars (c :: rest).length (c :: rest) = c :: injectList vars rest
  rw [List.length_cons, h1, hstep]
  rfl

/-- A well-formed placeholder at the head of the input is consumed in one
step and replaced according to the variable map. -/
theorem injectStep_placeholder (vars : List (String × String)) (name rest : List Char)
    (hne : name ≠ []) (hnb : ∀ d ∈ name, d ≠ '\x7d') :
    injectStep vars ('\x7b' :: '\x7b' :: (name ++ '\x7d' :: '\x7d' :: rest)) =
      (replaceFor vars name, rest) := by
  have hrun : (name ++ '\x7d' :: '\x7d' :: rest).takeWhile (fun d => d ≠ '\x7d') = name := by
    refine takeWhile_append_of_all _ name '\x7d' ('\x7d' :: rest) ?_ (by simp)
    intro a ha
    simp [hnb a ha]
  simp only [injectStep, hrun]
  rw [List.drop_left]
  simp [hne]

/-- C6: injectVariables replaces each well-formed placeholder whose trimmed
name is a key of the variable map with the (stringified) value, and keeps a
placeholder whose trimmed name is not a key verbatim: after a brace-free
prefix, the placeholder body is rewritten to replaceFor (the lookup-or-keep
callback of the source) and scanning continues on the remainder; the two
concrete cases of the claim are included. -/
theorem injectVariables_placeholder_semantics :
    (∀ (pre name rest : List Char) (vars : List (String × String)),
      pre.all (fun c => c ≠ '\x7b') = true → name ≠ [] →
      name.all (fun d => d ≠ '\x7d') = true →
      injectList vars (pre ++ '\x7b' :: '\x7b' :: (name ++ '\x7d' :: '\x7d' :: rest)) =
        pre ++ replaceFor vars name ++ injectList vars rest) ∧
    injectVariables "Plan: \x7b\x7bX\x7d\x7d." [("X", "run")] = "Plan: run." ∧
    injectVariables "Plan: \x7b\x7bX\x7d\x7d." [] = "Plan: \x7b\x7bX\x7d\x7d." := by
  refine ⟨?_, by decide, by decide⟩
  intro pre
  induction pre with
  | nil =>
    intro name rest vars _ hne hnb
    have hnb2 : ∀ d ∈ name, d ≠ '\x7d' := by
      intro d hd
      have := List.all_eq_true.1 hnb d hd
      simpa using this
    have hstep := injectStep_placeholder vars name rest hne hnb2
    set L := '\x7b' :: '\x7b' :: (name ++ '\x7d' :: '\x7d' :: rest) with hL
    have h1 : injectAux vars (('\x7b' :: (name ++ '\x7d' :: '\x7d' :: rest)).length + 1) L =
        (injectStep vars L).1 ++ injectAux vars ('\x7b' :: (name ++ '\x7d' :: '\x7d' :: rest)).length
          (injectStep vars L).2 := rfl
    have h2 : injectList vars L =
        (injectStep vars L).1 ++ injectAux vars ('\x7b' :: (name ++ '\x7d' :: '\x7d' :: rest)).length
          (injectStep vars L).2 := h1
    rw [List.nil_append, h2, hstep]
    have hfuel : injectAux vars ('\x7b' :: (name ++ '\x7d' :: '\x7d' :: rest)).length rest =
        injectAux vars rest.length rest := by
      refine injectAux_fuel_irrel vars _ _ rest ?_ (le_refl _)
      simp [List.length_append]
      omega
    rw [hfuel]
    rfl
  | cons c pre2 ih =>
    intro name rest vars hall hne hnb
    have hc : c ≠ '\x7b' := by
      have := List.all_eq_true.1 hall c (List.mem_cons_self c pre2)
      simpa using this
    have hall2 : pre2.all (fun c => c ≠ '\x7b') = true := by
      rw [List.all_eq_true]
      intro d hd
      exact List.all_eq_true.1 hall d (List.mem_cons_of_mem c hd)
    rw [List.cons_append, injectList_cons_no_brace vars c _ hc]
    rw [ih name rest vars hall2 hne hnb]
    rfl

/-- Witness for the generic part of C6 at template "Plan: \x7b\x7bX\x7d\x7d."
decomposed as prefix "Plan: ", name "X", remainder ".". -/
theorem injectVariables_placeholder_semantics_witness :
    ("Plan: ".data.all (fun c => c ≠ '\x7b') = true ∧ "X".data ≠ [] ∧
      "X".data.all (fun d => d ≠ '\x7d') = true) ∧
    injectList [("X", "run")]
        ("Plan: ".data ++ '\x7b' :: '\x7b' :: ("X".data ++ '\x7d' :: '\x7d' :: ".".data)) =
      "Plan: ".data ++ replaceFor [("X", "run")] "X".data ++ injectList [("X", "run")] ".".data :=
  ⟨⟨by decide, by decide, by decide⟩,
    injectVariables_placeholder_semantics.1 "Plan: ".data "X".data ".".data [("X", "run")]
      (by decide) (by decide) (by decide)⟩

/-- Setting a key makes it readable (whether it replaced an existing entry
in place or was appended). -/
theorem lookupF_setKey (k : String) (v : JVal) :
    ∀ (fs : List (String × JVal)), lookupF (setKey fs k v) k = some v := by
  intro fs
  induction fs with
  | nil => simp [setKey, lookupF]
  | cons p rest ih =>
    by_cases h : p.1 = k
    · simp [setKey, h, lookupF]
    · simp [setKey, h, lookupF, ih]

/-- A span whose content is Model-typed, with string provider and model,
object-shaped input and output, a cost and a full token rollup; the free
parameters cover the values the C5 claim quantifies over. -/
def mkModelSpan (nm : String) (st : Status) (t0 t1 : Int)
    (inpFields outFields : List (String × JVal)) (provS mdlS : String) (q : ℚ) : SpanE :=
  { name := nm, status := st, startedAt := t0, endedAt := t1,
    content := some (JVal.obj
      [("type", JVal.str "Model"),
       ("provider", JVal.str provS),
       ("model", JVal.str mdlS),
       ("input", JVal.obj inpFields),
       ("output", JVal.obj outFields)]),
    cost := some q,
    tokens := some { input := some 10, output := some 20, total := some 30 } }

/-- C5: for every Model-typed span with tokens 10/20/30, a cost and a
defined object output, the wire content promotes provider, model and the
span cost to the top level of content, and the serialized content.output
is the JSON encoding of an object whose tokenUsage field is
promptTokens 10, completionTokens 20, totalTokens 30. -/
theorem buildSpanContent_model_promotion :
    ∀ (nm : String) (st : Status) (t0 t1 : Int)
      (inpFields outFields : List (String × JVal)) (provS mdlS : String) (q : ℚ),
      ∃ content,
        buildSpanContent (mkModelSpan nm st t0 t1 inpFields outFields provS mdlS q) =
          some content ∧
        lookupF content "cost" = some (JVal.num q) ∧
        lookupF content "provider" = some (JVal.str provS) ∧
        lookupF content "model" = some (JVal.str mdlS) ∧
        ∃ outObj,
          lookupF content "output" = some (JVal.str (jsonStringify (JVal.obj outObj))) ∧
          lookupF outObj "tokenUsage" = some (JVal.obj
            [("promptTokens", JVal.num 10), ("completionTokens", JVal.num 20),
             ("totalTokens", JVal.num 30)]) := by
  intro nm st t0 t1 inpFields outFields provS mdlS q
  refine ⟨_, rfl, rfl, rfl, rfl, ?_⟩
  refine ⟨setKey outFields "tokenUsage" (JVal.obj
    [("promptTokens", JVal.num 10), ("completionTokens", JVal.num 20),
     ("totalTokens", JVal.num 30)]), rfl, ?_⟩
  exact lookupF_setKey _ _ outFields
